import Mathlib

/-!
# Verification of the A01323669_A4.2 batch report pipelines

Shallow embedding of the three Python programs of the repository:
`computeStatistics.py` (descriptive statistics over floats),
`convertNumbers.py` (manual radix conversion of integers), and
`wordCount.py` (word normalization and frequency counting).

Numeric values are modelled as exact rationals (`ℚ`); Python integers are
`Int`/`Nat`; Python strings are Lean `String`s, reasoned about through their
character lists (`String.data`).
-/

namespace A42

/-! ## Radix converter (`convertNumbers.py`) -/

/-- The module constant `HEX_DIGITS = "0123456789ABCDEF"` of `convertNumbers.py`. -/
def HEX_DIGITS : String := "0123456789ABCDEF"

/-- One digit string of the conversion loop body of `to_base`:
`HEX_DIGITS[remainder]` when `base == 16`, else `str(remainder)`. -/
def digitStr (base r : Nat) : String :=
  if base = 16 then String.singleton (HEX_DIGITS.data.getD r (Char.ofNat 32))
  else toString r

/-- The `while n > 0` digit-accumulation loop of `to_base` in `convertNumbers.py`:
the returned list is in Python append order (least-significant digit first).
The guard `1 < base` records the termination condition of the Python loop
(the program only ever calls it with base 2 or 16). -/
def toBaseDigits (base : Nat) (n : Nat) : List String :=
  if h : 1 < base ∧ 0 < n then
    digitStr base (n % base) :: toBaseDigits base (n / base)
  else []
termination_by n
decreasing_by exact Nat.div_lt_self h.2 h.1

/-- Function `to_base` of `convertNumbers.py`: zero maps to `"0"`; otherwise the
magnitude's digits are collected by repeated division, reversed, joined, and a
leading `"-"` is re-attached for negative input. -/
def to_base (number : Int) (base : Nat) : String :=
  if number = 0 then "0"
  else
    let n := (if number < 0 then -number else number).toNat
    let digits := toBaseDigits base n
    let result := String.join digits.reverse
    if number < 0 then "-" ++ result else result

/-- Modelled from the spec: the value of one digit character when a `to_base`
output is read back as a base-2 or base-16 literal — its index in the
`HEX_DIGITS` alphabet. -/
def digit_val (c : Char) : Nat := HEX_DIGITS.data.indexOf c

/-- Modelled from the spec: read a list of digit characters as an unsigned
base-`base` numeral, most significant digit first. -/
def parseNat (base : Nat) (l : List Char) : Nat :=
  l.foldl (fun acc c => acc * base + digit_val c) 0

/-- Modelled from the spec: read a string as a signed base-`base` literal —
a leading `-` negates the numeral formed by the remaining digits. -/
def parseSigned (base : Nat) (s : String) : Int :=
  if s.data.head? = some (Char.ofNat 45) then -(parseNat base s.data.tail : Int)
  else (parseNat base s.data : Int)

theorem foldl_append_strings (l : List String) (s : String) :
    (l.foldl (· ++ ·) s).data = s.data ++ (l.map String.data).flatten := by
  induction l generalizing s with
  | nil => simp
  | cons a t ih => simp [List.foldl_cons, ih, String.data_append]

theorem flatten_data (l : List String) :
    (String.join l).data = (l.map String.data).flatten := by
  simpa using foldl_append_strings l ""

/-- The shape every digit emitted by `digitStr` must have for the round trip:
a single character that is not `-` and whose `digit_val` inverts it. -/
def DigitOk (base : Nat) : Prop :=
  ∀ r, r < base →
    (digitStr base r).data = [(digitStr base r).data.getD 0 (Char.ofNat 32)] ∧
    digit_val ((digitStr base r).data.getD 0 (Char.ofNat 32)) = r ∧
    (digitStr base r).data.getD 0 (Char.ofNat 32) ≠ Char.ofNat 45

theorem digitOk_two : DigitOk 2 := by unfold DigitOk; decide

theorem digitOk_sixteen : DigitOk 16 := by unfold DigitOk; decide

theorem parseNat_append_single (base : Nat) (l : List Char) (c : Char) :
    parseNat base (l ++ [c]) = parseNat base l * base + digit_val c := by
  simp [parseNat, List.foldl_append]

theorem toBaseDigits_zero (base : Nat) : toBaseDigits base 0 = [] := by
  rw [toBaseDigits]; simp

/-- The joined, reversed digit list of a positive magnitude is a nonempty
string of non-`-` digit characters that parses back to the magnitude. -/
theorem parse_toBaseDigits (base : Nat) (hb : 1 < base) (hd : DigitOk base) :
    ∀ n : Nat, 0 < n →
      ∃ cs : List Char,
        ((toBaseDigits base n).reverse.map String.data).flatten = cs ∧
        cs ≠ [] ∧ (∀ c ∈ cs, c ≠ Char.ofNat 45) ∧ parseNat base cs = n := by
  intro n
  induction n using Nat.strong_induction_on with
  | _ n ih =>
    intro hn
    have hrem : n % base < base := Nat.mod_lt _ (by omega)
    obtain ⟨hsingle, hval, hnotminus⟩ := hd (n % base) hrem
    set c := (digitStr base (n % base)).data.getD 0 (Char.ofNat 32) with hc
    have hstep : toBaseDigits base n = digitStr base (n % base) :: toBaseDigits base (n / base) := by
      rw [toBaseDigits]; simp [hb, hn]
    by_cases hq : n / base = 0
    · -- single digit: n < base
      have hnlt : n < base := by
        have h2 := Nat.div_add_mod n base
        rw [hq, Nat.mul_zero, Nat.zero_add] at h2
        omega
      have hmod : n % base = n := Nat.mod_eq_of_lt hnlt
      refine ⟨[c], ?_, by simp, ?_, ?_⟩
      · rw [hstep, hq, toBaseDigits_zero]
        simp [hsingle]
      · intro x hx
        simp at hx
        simpa [hx] using hnotminus
      · simp [parseNat, hval, hmod]
    · have hqpos : 0 < n / base := Nat.pos_of_ne_zero hq
      have hlt : n / base < n := Nat.div_lt_self hn hb
      obtain ⟨cs', hjoin', hne', hnm', hparse'⟩ := ih (n / base) hlt hqpos
      refine ⟨cs' ++ [c], ?_, by simp, ?_, ?_⟩
      · rw [hstep]
        simp only [List.reverse_cons, List.map_append, List.flatten_append]
        rw [hjoin']
        simp [hsingle]
      · intro x hx
        rcases List.mem_append.mp hx with h | h
        · exact hnm' x h
        · simp at h; simpa [h] using hnotminus
      · rw [parseNat_append_single, hparse', hval, Nat.mul_comm, Nat.div_add_mod]

/-- Round trip of `to_base` for one base with well-behaved digits. -/
theorem parseSigned_to_base (base : Nat) (hb : 1 < base) (hd : DigitOk base)
    (n : Int) : parseSigned base (to_base n base) = n := by
  rcases lt_trichotomy n 0 with hneg | hzero | hpos
  · -- negative input: "-" ++ digits of the magnitude
    have hne : n ≠ 0 := ne_of_lt hneg
    have hmagpos : 0 < (-n).toNat := by omega
    obtain ⟨cs, hjoin, hne', hnm, hparse⟩ := parse_toBaseDigits base hb hd (-n).toNat hmagpos
    have hform : to_base n base =
        "-" ++ String.join (toBaseDigits base (-n).toNat).reverse := by
      simp [to_base, hne, hneg]
    have hdata : (to_base n base).data = Char.ofNat 45 :: cs := by
      rw [hform, String.data_append, flatten_data, hjoin]
      rfl
    rw [parseSigned, hdata]
    simp [hparse]
    omega
  · subst hzero
    have h0 : to_base 0 base = "0" := by simp [to_base]
    rw [h0, parseSigned, if_neg (by decide)]
    have h1 : ("0" : String).data = [Char.ofNat 48] := by decide
    rw [h1]
    have h2 : digit_val (Char.ofNat 48) = 0 := by decide
    simp [parseNat, h2]
  · -- positive input: plain digit string, first char is a digit, not '-'
    have hne : n ≠ 0 := ne_of_gt hpos
    have hnlt : ¬ n < 0 := by omega
    have hmagpos : 0 < n.toNat := by omega
    obtain ⟨cs, hjoin, hne', hnm, hparse⟩ := parse_toBaseDigits base hb hd n.toNat hmagpos
    have hform : to_base n base = String.join (toBaseDigits base n.toNat).reverse := by
      simp [to_base, hne, hnlt]
    have hdata : (to_base n base).data = cs := by
      rw [hform, flatten_data, hjoin]
    obtain ⟨c, cs', rfl⟩ := List.exists_cons_of_ne_nil hne'
    have hhead : c ≠ Char.ofNat 45 := hnm c (by simp)
    rw [parseSigned, hdata]
    simp [hhead, hparse]
    omega

/-- Negative inputs: `to_base` re-attaches a leading `-` to the conversion of
the absolute value (any base). -/
theorem to_base_neg (n : Int) (b : Nat) (hneg : n < 0) :
    to_base n b = "-" ++ to_base (-n) b := by
  have hne : n ≠ 0 := ne_of_lt hneg
  have hne' : -n ≠ 0 := by omega
  have hnn : ¬ (-n < 0) := by omega
  simp [to_base, hne, hne', hneg, hnn]

theorem to_base_255_hex : to_base 255 16 = "FF" := by
  have ht : ((255 : Int)).toNat = 255 := rfl
  have hdig : toBaseDigits 16 255 = [digitStr 16 15, digitStr 16 15] := by
    simp [toBaseDigits]
  norm_num [to_base]
  rw [ht, hdig]
  decide

/-- C3: interpreting `to_base n 2` as a signed base-2 literal yields `n` back,
and interpreting `to_base n 16` as a signed base-16 literal yields `n` back,
for every integer `n` (zero, negative, arbitrarily large). -/
theorem to_base_roundtrip (n : Int) :
    parseSigned 2 (to_base n 2) = n ∧ parseSigned 16 (to_base n 16) = n :=
  ⟨parseSigned_to_base 2 (by norm_num) digitOk_two n,
   parseSigned_to_base 16 (by norm_num) digitOk_sixteen n⟩

/-- C4: `to_base` maps zero to the literal `"0"` in bases 2 and 16; for every
negative integer the result is `"-"` prepended to the conversion of the
absolute value (magnitude-only, no two's complement); and
`to_base (-255) 16 = "-FF"`. -/
theorem to_base_zero_and_negative :
    to_base 0 2 = "0" ∧ to_base 0 16 = "0" ∧ to_base (-255) 16 = "-FF" ∧
    ∀ n : Int, n < 0 →
      to_base n 2 = "-" ++ to_base (-n) 2 ∧ to_base n 16 = "-" ++ to_base (-n) 16 := by
  refine ⟨by simp [to_base], by simp [to_base], ?_, ?_⟩
  · rw [to_base_neg (-255) 16 (by norm_num)]
    norm_num [to_base_255_hex]
    decide
  · intro n hneg
    exact ⟨to_base_neg n 2 hneg, to_base_neg n 16 hneg⟩

/-- Witness for C4 at `n = -5`. -/
theorem to_base_zero_and_negative_witness :
    to_base (-5) 2 = "-" ++ to_base 5 2 ∧ to_base (-5) 16 = "-" ++ to_base 5 16 := by
  have h := to_base_zero_and_negative.2.2.2 (-5) (by norm_num)
  simpa using h

/-! ## Statistics engine (`computeStatistics.py`)

Float values are modelled as exact rationals. -/

/-- Function `mean` of `computeStatistics.py`: left-fold sum divided by the count. -/
def mean (values : List ℚ) : ℚ :=
  (values.foldl (fun total value => total + value) 0) / (values.length : ℚ)

/-- Function `median` of `computeStatistics.py`: sort ascending; an odd count takes the
middle element, an even count averages the two middle elements. (Python would
raise on an empty list; here out-of-range indexing takes the `getD` default,
and all claims about `median` restrict to non-empty input.) -/
def median (values : List ℚ) : ℚ :=
  let sorted_values := List.insertionSort (· ≤ ·) values
  let n := sorted_values.length
  let mid := n / 2
  if n % 2 = 1 then sorted_values.getD mid 0
  else (sorted_values.getD (mid - 1) 0 + sorted_values.getD mid 0) / 2

/-- One step of the dictionary accumulation `freq[value] = freq.get(value, 0) + 1`
on an insertion-ordered association list (the model of a Python dict). -/
def freqIncr {α : Type} [DecidableEq α] : List (α × Nat) → α → List (α × Nat)
  | [], k => [(k, 1)]
  | (k', c) :: rest, k =>
      if k' = k then (k', c + 1) :: rest else (k', c) :: freqIncr rest k

/-- The single-pass frequency accumulation loop shared by `mode` in
`computeStatistics.py` and `count_frequencies` in `wordCount.py`. -/
def buildFreq {α : Type} [DecidableEq α] (values : List α) : List (α × Nat) :=
  values.foldl freqIncr []

/-- Dictionary lookup `freq.get(value, 0)` on the association-list model. -/
def freqGet {α : Type} [DecidableEq α] : List (α × Nat) → α → Nat
  | [], _ => 0
  | (k', c) :: rest, k => if k' = k then c else freqGet rest k

/-- The computation `max(freq.values(), default=0)` of `mode`. -/
def maxCounts {α : Type} (freq : List (α × Nat)) : Nat :=
  (freq.map Prod.snd).foldl Nat.max 0

/-- The first-match scan loop of `mode` over the original input order. -/
def modeScan : List ℚ → List (ℚ × Nat) → Nat → List ℚ
  | [], _, _ => []
  | value :: rest, freq, max_count =>
      if freqGet freq value = max_count then [value] else modeScan rest freq max_count

/-- Function `mode` of `computeStatistics.py`: build the frequency map, find the maximum
count; no repeats means no mode; otherwise return the first value (in input
order) whose count equals the maximum. -/
def mode (values : List ℚ) : List ℚ :=
  let freq := buildFreq values
  let max_count := maxCounts freq
  if max_count ≤ 1 then []
  else modeScan values freq max_count

/-- Function `population_variance` of `computeStatistics.py`: sum of squared deviations
from the given mean, divided by `count - 1`; `0.0` when the count is below 2. -/
def population_variance (values : List ℚ) (mean_value : ℚ) : ℚ :=
  let total := values.foldl
    (fun total value => total + (value - mean_value) * (value - mean_value)) 0
  if values.length < 2 then 0
  else total / ((values.length : ℚ) - 1)

/-! ### Frequency-table lemmas -/

/-- The sum of the stored counts of a frequency table. -/
def sumCounts {α : Type} (m : List (α × Nat)) : Nat := (m.map Prod.snd).sum

/-- The keys of a frequency table. -/
def keys {α : Type} (m : List (α × Nat)) : List α := m.map Prod.fst

theorem freqGet_freqIncr_same {α : Type} [DecidableEq α] (m : List (α × Nat)) (k : α) :
    freqGet (freqIncr m k) k = freqGet m k + 1 := by
  induction m with
  | nil => simp [freqIncr, freqGet]
  | cons p rest ih =>
    obtain ⟨k', c⟩ := p
    by_cases h : k' = k
    · simp [freqIncr, freqGet, h]
    · simp [freqIncr, freqGet, h, ih]

theorem freqGet_freqIncr_other {α : Type} [DecidableEq α] (m : List (α × Nat))
    (k k' : α) (h : k ≠ k') : freqGet (freqIncr m k) k' = freqGet m k' := by
  induction m with
  | nil => simp [freqIncr, freqGet, h]
  | cons p rest ih =>
    obtain ⟨k0, c⟩ := p
    by_cases h0 : k0 = k
    · subst h0
      simp [freqIncr, freqGet, h]
    · by_cases h1 : k0 = k'
      · subst h1
        simp [freqIncr, freqGet, h0]
      · simp [freqIncr, freqGet, h0, h1, ih]

theorem freqGet_foldl {α : Type} [DecidableEq α] (values : List α)
    (m : List (α × Nat)) (k : α) :
    freqGet (values.foldl freqIncr m) k = freqGet m k + values.count k := by
  induction values generalizing m with
  | nil => simp
  | cons v rest ih =>
    rw [List.foldl_cons, ih]
    by_cases h : v = k
    · subst h
      rw [freqGet_freqIncr_same]
      simp [List.count_cons]
      omega
    · rw [freqGet_freqIncr_other m v k h]
      simp [List.count_cons, h]

/-- The accumulated table stores exactly the occurrence counts of the input. -/
theorem freqGet_buildFreq {α : Type} [DecidableEq α] (values : List α) (k : α) :
    freqGet (buildFreq values) k = values.count k := by
  rw [buildFreq, freqGet_foldl]
  simp [freqGet]

theorem sumCounts_freqIncr {α : Type} [DecidableEq α] (m : List (α × Nat)) (k : α) :
    sumCounts (freqIncr m k) = sumCounts m + 1 := by
  induction m with
  | nil => simp [freqIncr, sumCounts]
  | cons p rest ih =>
    obtain ⟨k', c⟩ := p
    by_cases h : k' = k
    · simp [freqIncr, sumCounts, h]
      omega
    · simp [freqIncr, sumCounts, h] at ih ⊢
      omega

theorem sumCounts_foldl {α : Type} [DecidableEq α] (values : List α) (m : List (α × Nat)) :
    sumCounts (values.foldl freqIncr m) = sumCounts m + values.length := by
  induction values generalizing m with
  | nil => simp
  | cons v rest ih =>
    rw [List.foldl_cons, ih, sumCounts_freqIncr]
    simp
    omega

/-- The counts of the accumulated table sum to the input length. -/
theorem sumCounts_buildFreq {α : Type} [DecidableEq α] (values : List α) :
    sumCounts (buildFreq values) = values.length := by
  rw [buildFreq, sumCounts_foldl]
  simp [sumCounts]

theorem mem_freqIncr_invariant {α : Type} [DecidableEq α] (S : α → Prop)
    (m : List (α × Nat)) (k : α) (hm : ∀ p ∈ m, 1 ≤ p.2 ∧ S p.1) (hk : S k) :
    ∀ p ∈ freqIncr m k, 1 ≤ p.2 ∧ S p.1 := by
  induction m with
  | nil =>
    intro p hp
    simp [freqIncr] at hp
    subst hp
    exact ⟨Nat.le_refl 1, hk⟩
  | cons q rest ih =>
    obtain ⟨k', c⟩ := q
    intro p hp
    by_cases h : k' = k
    · simp [freqIncr, h] at hp
      rcases hp with hp | hp
      · subst hp
        exact ⟨Nat.le_add_left 1 c, h ▸ hk⟩
      · exact hm p (List.mem_cons_of_mem _ hp)
    · simp only [freqIncr, if_neg h, List.mem_cons] at hp
      rcases hp with hp | hp
      · subst hp
        exact hm (k', c) (List.mem_cons_self _ _)
      · exact ih (fun q hq => hm q (List.mem_cons_of_mem _ hq)) p hp

theorem mem_foldl_invariant {α : Type} [DecidableEq α] (S : α → Prop)
    (values : List α) (m : List (α × Nat))
    (hm : ∀ p ∈ m, 1 ≤ p.2 ∧ S p.1) (hvs : ∀ v ∈ values, S v) :
    ∀ p ∈ values.foldl freqIncr m, 1 ≤ p.2 ∧ S p.1 := by
  induction values generalizing m with
  | nil => simpa using hm
  | cons v rest ih =>
    rw [List.foldl_cons]
    exact ih (freqIncr m v)
      (mem_freqIncr_invariant S m v hm (hvs v (List.mem_cons_self _ _)))
      (fun x hx => hvs x (List.mem_cons_of_mem _ hx))

/-- Every entry of the accumulated table has count at least one and a key
occurring in the input. -/
theorem mem_buildFreq {α : Type} [DecidableEq α] (values : List α) :
    ∀ p ∈ buildFreq values, 1 ≤ p.2 ∧ p.1 ∈ values :=
  mem_foldl_invariant (· ∈ values) values [] (by simp) (fun _ h => h)

/-! ### Maximum frequency -/

/-- Maximum of a list of naturals with default 0 (the shape of
`max(freq.values(), default=0)`). -/
def listMax (l : List Nat) : Nat := l.foldl Nat.max 0

theorem foldl_max_init (l : List Nat) (a : Nat) :
    l.foldl Nat.max a = Nat.max a (listMax l) := by
  induction l generalizing a with
  | nil => simp [listMax]
  | cons x t ih =>
    rw [listMax, List.foldl_cons, List.foldl_cons, ih, ih (Nat.max 0 x)]
    simp [Nat.max_comm, Nat.max_assoc, Nat.max_left_comm]

theorem natMax0 (n : Nat) : Nat.max 0 n = n := Nat.zero_max n

theorem natMaxL {a b : Nat} (h : b ≤ a) : Nat.max a b = a := Nat.max_eq_left h

theorem natMaxR {a b : Nat} (h : a ≤ b) : Nat.max a b = b := Nat.max_eq_right h

theorem le_listMax {l : List Nat} {x : Nat} (hx : x ∈ l) : x ≤ listMax l := by
  induction l with
  | nil => cases hx
  | cons y t ih =>
    rw [listMax, List.foldl_cons, foldl_max_init, natMax0]
    rcases List.mem_cons.mp hx with h | h
    · subst h
      exact Nat.le_max_left _ _
    · exact Nat.le_trans (ih h) (Nat.le_max_right _ _)

theorem listMax_le {l : List Nat} {m : Nat} (h : ∀ x ∈ l, x ≤ m) : listMax l ≤ m := by
  induction l with
  | nil => simp [listMax]
  | cons y t ih =>
    rw [listMax, List.foldl_cons, foldl_max_init, natMax0]
    exact Nat.max_le.mpr
      ⟨h y (List.mem_cons_self _ _), ih (fun x hx => h x (List.mem_cons_of_mem _ hx))⟩

theorem listMax_mem {l : List Nat} (h : listMax l ≠ 0) : listMax l ∈ l := by
  induction l with
  | nil => simp [listMax] at h
  | cons y t ih =>
    rw [listMax, List.foldl_cons, foldl_max_init, natMax0] at h ⊢
    by_cases hc : listMax t ≤ y
    · rw [natMaxL hc]
      exact List.mem_cons_self _ _
    · have hle : y ≤ listMax t := Nat.le_of_lt (Nat.lt_of_not_le hc)
      rw [natMaxR hle] at h ⊢
      exact List.mem_cons_of_mem _ (ih h)

/-! ### Key uniqueness of the accumulated table -/

theorem keys_freqIncr {α : Type} [DecidableEq α] (m : List (α × Nat)) (k : α) :
    keys (freqIncr m k) = if k ∈ keys m then keys m else keys m ++ [k] := by
  induction m with
  | nil => simp [freqIncr, keys]
  | cons p rest ih =>
    obtain ⟨k0, c⟩ := p
    by_cases h : k0 = k
    · subst h
      simp [freqIncr, keys]
    · have hne : ¬ k = k0 := fun hh => h hh.symm
      simp only [freqIncr, if_neg h, keys, List.map_cons] at ih ⊢
      by_cases hm : k ∈ List.map Prod.fst rest
      · rw [if_pos hm] at ih
        rw [ih, if_pos (List.mem_cons_of_mem _ hm)]
      · rw [if_neg hm] at ih
        rw [ih, if_neg (by simp [List.mem_cons, hne, hm])]
        simp

theorem nodup_keys_freqIncr {α : Type} [DecidableEq α] {m : List (α × Nat)} (k : α)
    (h : (keys m).Nodup) : (keys (freqIncr m k)).Nodup := by
  rw [keys_freqIncr]
  by_cases hm : k ∈ keys m
  · rwa [if_pos hm]
  · rw [if_neg hm]
    simp [List.nodup_append, h, hm]

theorem nodup_keys_foldl {α : Type} [DecidableEq α] (values : List α)
    (m : List (α × Nat)) (h : (keys m).Nodup) : (keys (values.foldl freqIncr m)).Nodup := by
  induction values generalizing m with
  | nil => simpa
  | cons v rest ih =>
    rw [List.foldl_cons]
    exact ih _ (nodup_keys_freqIncr v h)

theorem nodup_keys_buildFreq {α : Type} [DecidableEq α] (values : List α) :
    (keys (buildFreq values)).Nodup :=
  nodup_keys_foldl values [] (by simp [keys])

theorem freqGet_eq_of_mem {α : Type} [DecidableEq α] {m : List (α × Nat)}
    (hnd : (keys m).Nodup) {k : α} {c : Nat} (hm : (k, c) ∈ m) : freqGet m k = c := by
  induction m with
  | nil => cases hm
  | cons p rest ih =>
    obtain ⟨k0, c0⟩ := p
    rw [keys, List.map_cons, List.nodup_cons] at hnd
    rcases List.mem_cons.mp hm with h | h
    · obtain ⟨h1, h2⟩ := Prod.mk.injEq .. ▸ h
      injection h with h1 h2
      subst h1
      subst h2
      simp [freqGet]
    · by_cases h0 : k0 = k
      · subst h0
        exact absurd (List.mem_map_of_mem Prod.fst h) (by simpa [keys] using hnd.1)
      · rw [freqGet, if_neg h0]
        exact ih (by simpa [keys] using hnd.2) h

theorem freqGet_mem {α : Type} [DecidableEq α] {m : List (α × Nat)} {k : α}
    (h : freqGet m k ≠ 0) : (k, freqGet m k) ∈ m := by
  induction m with
  | nil => simp [freqGet] at h
  | cons p rest ih =>
    obtain ⟨k0, c0⟩ := p
    by_cases h0 : k0 = k
    · subst h0
      simp [freqGet]
    · rw [freqGet, if_neg h0] at h ⊢
      exact List.mem_cons_of_mem _ (ih h)

/-- The spec-side maximum frequency over the list: the largest occurrence
count attained by any element. -/
def specMaxFreq (values : List ℚ) : Nat := listMax (values.map (values.count ·))

/-- The `max(freq.values(), default=0)` computed by `mode` equals the
spec-side maximum frequency over the input list. -/
theorem maxCounts_buildFreq (values : List ℚ) :
    maxCounts (buildFreq values) = specMaxFreq values := by
  have h1 : maxCounts (buildFreq values) = listMax ((buildFreq values).map Prod.snd) := rfl
  rw [h1, specMaxFreq]
  apply Nat.le_antisymm
  · apply listMax_le
    intro c hc
    obtain ⟨p, hp, hpc⟩ := List.mem_map.mp hc
    obtain ⟨hge, hmem⟩ := mem_buildFreq values p hp
    obtain ⟨k, cc⟩ := p
    have hck : cc = values.count k := by
      have := freqGet_eq_of_mem (nodup_keys_buildFreq values) hp
      rw [freqGet_buildFreq] at this
      omega
    subst hpc
    simp only at hck
    rw [hck]
    exact le_listMax (List.mem_map_of_mem _ hmem)
  · apply listMax_le
    intro c hc
    obtain ⟨v, hv, hvc⟩ := List.mem_map.mp hc
    have hget : freqGet (buildFreq values) v = values.count v := freqGet_buildFreq values v
    have hpos : 0 < values.count v := List.count_pos_iff.mpr hv
    have hne : freqGet (buildFreq values) v ≠ 0 := by omega
    have hmem := freqGet_mem hne
    rw [hget] at hmem
    subst hvc
    exact le_listMax (List.mem_map_of_mem Prod.snd hmem)

theorem find?_ext {α : Type} {p q : α → Bool} :
    ∀ l : List α, (∀ x ∈ l, p x = q x) → l.find? p = l.find? q
  | [], _ => rfl
  | a :: t, h => by
    have ha := h a (List.mem_cons_self _ _)
    by_cases hpa : p a = true
    · rw [List.find?_cons_of_pos _ hpa, List.find?_cons_of_pos _ (ha ▸ hpa)]
    · have hqa : ¬ q a = true := fun hq => hpa (ha ▸ hq)
      rw [List.find?_cons_of_neg _ (by simpa using hpa),
        List.find?_cons_of_neg _ (by simpa using hqa)]
      exact find?_ext t (fun x hx => h x (List.mem_cons_of_mem _ hx))

/-- The scan loop of `mode` returns the first match of its predicate, as a
zero-or-one element list. -/
theorem modeScan_eq_find? (values : List ℚ) (freq : List (ℚ × Nat)) (m : Nat) :
    modeScan values freq m =
      (values.find? (fun v => freqGet freq v == m)).toList := by
  induction values with
  | nil => rfl
  | cons v rest ih =>
    by_cases h : freqGet freq v = m
    · rw [modeScan, if_pos h, List.find?_cons_of_pos _ (by simpa using h)]
      rfl
    · rw [modeScan, if_neg h, List.find?_cons_of_neg _ (by simpa using h)]
      exact ih

/-- C1: for every non-empty list, if the maximum frequency over the list is at
most 1 then `mode` reports no mode (the empty list); otherwise `mode` returns
exactly one value — the first value in original input order whose frequency
equals the maximum frequency. -/
theorem mode_first_max (values : List ℚ) (hne : values ≠ []) :
    (specMaxFreq values ≤ 1 → mode values = []) ∧
    (1 < specMaxFreq values →
      ∃ v, values.find? (fun x => values.count x == specMaxFreq values) = some v ∧
        mode values = [v]) := by
  have hbridge := maxCounts_buildFreq values
  constructor
  · intro hle
    rw [mode]
    rw [hbridge]
    simp [hle]
  · intro hgt
    have hnotle : ¬ maxCounts (buildFreq values) ≤ 1 := by omega
    have hmode : mode values =
        (values.find? (fun v => freqGet (buildFreq values) v == maxCounts (buildFreq values))).toList := by
      rw [mode]
      rw [if_neg hnotle, modeScan_eq_find?]
    have hpred : values.find?
        (fun v => freqGet (buildFreq values) v == maxCounts (buildFreq values)) =
        values.find? (fun x => values.count x == specMaxFreq values) := by
      apply find?_ext
      intro x _
      rw [freqGet_buildFreq, hbridge]
    -- the maximum frequency is attained, so the scan finds a value
    have hmax0 : specMaxFreq values ≠ 0 := by omega
    have hmem : specMaxFreq values ∈ values.map (values.count ·) := listMax_mem hmax0
    obtain ⟨w, hw, hwc⟩ := List.mem_map.mp hmem
    have hsome : (values.find? (fun x => values.count x == specMaxFreq values)).isSome := by
      rw [List.find?_isSome]
      exact ⟨w, hw, by simpa using hwc⟩
    obtain ⟨v, hv⟩ := Option.isSome_iff_exists.mp hsome
    refine ⟨v, hv, ?_⟩
    rw [hmode, hpred, hv]
    rfl

/-- Witness for C1 at the tie-breaking input `[3, 1, 3, 1]`: the result is
`3`, the first of the two values sharing the maximum frequency. -/
theorem mode_first_max_witness : mode ([3, 1, 3, 1] : List ℚ) = [3] := by
  obtain ⟨v, hfind, hmode⟩ := (mode_first_max [3, 1, 3, 1] (by decide)).2 (by decide)
  have hf : ([3, 1, 3, 1] : List ℚ).find?
      (fun x => ([3, 1, 3, 1] : List ℚ).count x == specMaxFreq [3, 1, 3, 1]) = some 3 := by
    decide
  rw [hf] at hfind
  rw [hmode, Option.some.inj hfind]

theorem foldl_sq_sum (values : List ℚ) (m : ℚ) (init : ℚ) :
    values.foldl (fun total value => total + (value - m) * (value - m)) init =
      init + (values.map (fun v => (v - m) ^ 2)).sum := by
  induction values generalizing init with
  | nil => simp
  | cons v rest ih =>
    rw [List.foldl_cons, ih]
    simp [sq]
    ring

/-- C2: `population_variance` divides the sum of squared deviations from the
given mean by `count - 1` when the count is at least 2, and returns exactly 0
when the count is below 2; `variance [2, 4]` (mean 3) is 2 and the variance of
any single-element list is 0. -/
theorem population_variance_spec :
    (∀ (values : List ℚ) (m : ℚ), 2 ≤ values.length →
      population_variance values m =
        ((values.map (fun v => (v - m) ^ 2)).sum) / ((values.length : ℚ) - 1)) ∧
    (∀ (values : List ℚ) (m : ℚ), values.length < 2 → population_variance values m = 0) ∧
    population_variance [2, 4] (mean [2, 4]) = 2 ∧
    (∀ x m : ℚ, population_variance [x] m = 0) := by
  refine ⟨?_, ?_, ?_, ?_⟩
  · intro values m hlen
    rw [population_variance, if_neg (by omega), foldl_sq_sum]
    simp
  · intro values m hlen
    rw [population_variance, if_pos hlen]
  · have hmean : mean [2, 4] = 3 := by
      rw [mean]
      norm_num
    rw [hmean, population_variance, if_neg (by norm_num)]
    norm_num
  · intro x m
    rw [population_variance, if_pos (by norm_num)]

/-- Witness for C2 at `[2, 4]` with mean 3. -/
theorem population_variance_spec_witness :
    population_variance [2, 4] 3 =
      (([2, 4] : List ℚ).map (fun v => (v - 3) ^ 2)).sum / ((([2, 4] : List ℚ).length : ℚ) - 1) :=
  population_variance_spec.1 [2, 4] 3 (by norm_num)

/-- C8: for every non-empty list and every ascending-sorted rearrangement `s`
of it, `median` returns the exact middle element of `s` for odd length and the
mean of the two middle elements of `s` for even length; the result is
invariant under permutation of the input. -/
theorem median_spec (values : List ℚ) (hne : values ≠ []) (s : List ℚ)
    (hperm : s.Perm values) (hsorted : s.Sorted (· ≤ ·)) :
    (values.length % 2 = 1 → median values = s.getD (values.length / 2) 0) ∧
    (values.length % 2 = 0 →
      median values =
        (s.getD (values.length / 2 - 1) 0 + s.getD (values.length / 2) 0) / 2) ∧
    (∀ values' : List ℚ, values'.Perm values → median values' = median values) := by
  have hsort_eq : List.insertionSort (· ≤ ·) values = s :=
    List.eq_of_perm_of_sorted
      ((List.perm_insertionSort _ values).trans hperm.symm)
      (List.sorted_insertionSort _ values) hsorted
  have hlen : s.length = values.length := hperm.length_eq
  refine ⟨?_, ?_, ?_⟩
  · intro hodd
    rw [median, hsort_eq, hlen, if_pos hodd]
  · intro heven
    have hnotodd : ¬ s.length % 2 = 1 := by omega
    rw [median, hsort_eq, hlen, if_neg (by omega)]
  · intro values' hperm'
    have hsort_eq' : List.insertionSort (· ≤ ·) values' = List.insertionSort (· ≤ ·) values :=
      List.eq_of_perm_of_sorted
        ((List.perm_insertionSort _ values').trans
          (hperm'.trans ((List.perm_insertionSort _ values).symm)))
        (List.sorted_insertionSort _ values') (List.sorted_insertionSort _ values)
    rw [median, median, hsort_eq']

/-- Witness for C8 at `[3, 1, 2]` with sorted rearrangement `[1, 2, 3]`. -/
theorem median_spec_witness : median ([3, 1, 2] : List ℚ) = 2 := by
  have h := (median_spec [3, 1, 2] (by decide) [1, 2, 3] (by decide) (by decide)).1 (by decide)
  rw [h]
  decide

/-! ## Word normalizer and counter (`wordCount.py`) -/

/-- Function `count_frequencies` of `wordCount.py`: the same single-pass dictionary
accumulation, keyed by normalized word. -/
def count_frequencies (words : List String) : List (String × Nat) := buildFreq words

/-- C9: the frequency tables built by the single-pass accumulation — by `mode`
over float values and by `count_frequencies` over normalized words — have
counts summing to the input length, every stored count at least 1, and no
entry whose key does not occur in the input. -/
theorem frequency_table_invariants :
    (∀ values : List ℚ,
      sumCounts (buildFreq values) = values.length ∧
      ∀ p ∈ buildFreq values, 1 ≤ p.2 ∧ p.1 ∈ values) ∧
    (∀ words : List String,
      sumCounts (count_frequencies words) = words.length ∧
      ∀ p ∈ count_frequencies words, 1 ≤ p.2 ∧ p.1 ∈ words) :=
  ⟨fun values => ⟨sumCounts_buildFreq values, mem_buildFreq values⟩,
   fun words => ⟨sumCounts_buildFreq words, mem_buildFreq words⟩⟩

/-- Witness for C9 on the word list `["a", "b", "a"]` and its entry
`("a", 2)`. -/
theorem frequency_table_invariants_witness :
    sumCounts (count_frequencies ["a", "b", "a"]) = 3 ∧
    (1 ≤ (("a", 2) : String × Nat).2 ∧ ("a", 2).1 ∈ ["a", "b", "a"]) := by
  refine ⟨?_, (frequency_table_invariants.2 ["a", "b", "a"]).2 ("a", 2) (by decide)⟩
  have h := (frequency_table_invariants.2 ["a", "b", "a"]).1
  simpa using h

/-- The literal punctuation set stripped by `normalize_word`:
`. , ; : ! ? " ' ( ) [ ] { }` (the double quote, single quote and braces are
written by code point). Note the set contains no dash. -/
def PUNCT : List Char :=
  [Char.ofNat 46, Char.ofNat 44, Char.ofNat 59, Char.ofNat 58, Char.ofNat 33,
   Char.ofNat 63, Char.ofNat 34, Char.ofNat 39, Char.ofNat 40, Char.ofNat 41,
   Char.ofNat 91, Char.ofNat 93, Char.ofNat 123, Char.ofNat 125]

/-- Function `normalize_word` of `wordCount.py`: `token.strip(PUNCT).lower()` — remove
every leading and trailing character of the punctuation set, then lowercase. -/
def normalize_word (token : String) : String :=
  String.mk ((((token.data.dropWhile (PUNCT.contains ·)).reverse.dropWhile
      (PUNCT.contains ·)).reverse).map Char.toLower)

/-- Whitespace tokenization `text.split()`: accumulate the current run of
non-whitespace characters (reversed) and emit it at each whitespace boundary. -/
def splitWsAux : List Char → List Char → List (List Char)
  | [], acc => if acc = [] then [] else [acc.reverse]
  | c :: cs, acc =>
      if c.isWhitespace then
        (if acc = [] then [] else [acc.reverse]) ++ splitWsAux cs []
      else splitWsAux cs (c :: acc)

/-- Python `text.split()`: the list of maximal non-whitespace runs. -/
def splitWs (l : List Char) : List (List Char) := splitWsAux l []

/-- The outcome of `file_path.read_text(encoding="utf-8")` in `read_words`:
either a Unicode decoding failure or the decoded text. -/
inductive Source where
  | decodeError : Source
  | text : String → Source

/-- Function `read_words` of `wordCount.py` after the read: a decode failure yields one
message and no words; a token-less text yields one warning and no words;
otherwise each token is normalized and kept when non-empty. -/
def read_words (src : Source) : List String × List String :=
  match src with
  | Source.decodeError => ([], ["File encoding error: could not read as UTF-8."])
  | Source.text t =>
      let tokens := splitWs t.data
      if tokens = [] then ([], ["Warning: file contained no readable tokens."])
      else
        (tokens.foldl (fun words token =>
            let word := normalize_word (String.mk token)
            if word ≠ "" then words ++ [word] else words) [],
         [])

theorem words_foldl_eq (tokens : List (List Char)) (acc : List String) :
    tokens.foldl (fun words token =>
        let word := normalize_word (String.mk token)
        if word ≠ "" then words ++ [word] else words) acc =
      acc ++ (tokens.map (fun tk => normalize_word (String.mk tk))).filter
        (fun w => w ≠ "") := by
  induction tokens generalizing acc with
  | nil => simp
  | cons tk rest ih =>
    rw [List.foldl_cons, ih]
    by_cases h : normalize_word (String.mk tk) = ""
    · simp [h]
    · simp [h]

/-- C5 counterexample: the token `---` consists only of punctuation characters
in the ordinary sense, yet it does NOT contribute nothing — the dash is not in
the stripped set, so it survives normalization and is counted as a word. -/
theorem normalize_dash_cex : ¬ ((read_words (Source.text "---")).1 = []) := by decide

/-- C5 (amended: an all-punctuation token contributes nothing only when its
characters are in the fixed stripped set, e.g. `"!!!"`; the token `"---"` is
not such a token — `-` is not in the set — and contributes the word `---`):
per-token normalization strips the fixed punctuation set from both ends and
lowercases; a token normalizing to the empty string contributes no word and no
message; `"Hello, world!!"` yields exactly `["hello", "world"]`. -/
theorem normalize_words_spec :
    (read_words (Source.text "Hello, world!!")).1 = ["hello", "world"] ∧
    (read_words (Source.text "Hello, world!!")).2 = [] ∧
    normalize_word "!!!" = "" ∧
    (read_words (Source.text "!!!")).1 = [] ∧
    (∀ t : String, splitWs t.data ≠ [] →
      (read_words (Source.text t)).1 =
        ((splitWs t.data).map (fun tk => normalize_word (String.mk tk))).filter
          (fun w => w ≠ "") ∧
      (read_words (Source.text t)).2 = []) := by
  refine ⟨by decide, by decide, by decide, by decide, ?_⟩
  intro t h
  rw [read_words]
  rw [if_neg h]
  constructor
  · rw [words_foldl_eq]
    simp
  · rfl

/-- Witness for C5 on the text `"x"`. -/
theorem normalize_words_spec_witness :
    (read_words (Source.text "x")).1 =
      ((splitWs ("x" : String).data).map (fun tk => normalize_word (String.mk tk))).filter
        (fun w => w ≠ "") :=
  (normalize_words_spec.2.2.2.2 "x" (by decide)).1

/-- C7: a decode failure yields exactly one recorded message and an empty word
list; a successful decode whose whitespace split yields zero tokens yields
exactly one "no readable tokens" message and an empty word list. -/
theorem read_words_source_outcomes :
    read_words Source.decodeError =
      ([], ["File encoding error: could not read as UTF-8."]) ∧
    (∀ t : String, splitWs t.data = [] →
      read_words (Source.text t) =
        ([], ["Warning: file contained no readable tokens."])) := by
  refine ⟨rfl, ?_⟩
  intro t h
  rw [read_words, if_pos h]

/-- Witness for C7 on the empty text. -/
theorem read_words_source_outcomes_witness :
    read_words (Source.text "") =
      ([], ["Warning: file contained no readable tokens."]) :=
  read_words_source_outcomes.2 "" (by decide)

/-- C10: when the text splits into at least one raw token but every token
normalizes to the empty string, `read_words` returns an empty word list AND an
empty message list — the zero-token check runs on raw tokens, before
normalization, so no warning is emitted. -/
theorem read_words_all_punct_tokens (t : String)
    (h1 : splitWs t.data ≠ [])
    (h2 : ∀ tk ∈ splitWs t.data, normalize_word (String.mk tk) = "") :
    read_words (Source.text t) = ([], []) := by
  rw [read_words, if_neg h1]
  refine Prod.ext ?_ rfl
  rw [words_foldl_eq]
  simp only [List.nil_append]
  rw [List.filter_eq_nil_iff]
  intro w hw
  obtain ⟨tk, htk, rfl⟩ := List.mem_map.mp hw
  simp [h2 tk htk]

/-- Witness for C10 on the text `"!!! ??"` (two raw tokens, both normalizing
to the empty string). -/
theorem read_words_all_punct_tokens_witness :
    read_words (Source.text "!!! ??") = ([], []) :=
  read_words_all_punct_tokens "!!! ??" (by decide) (by decide)

/-! ## Line parser (`parse_numbers` of `computeStatistics.py`) -/

/-- Python `str.strip()` on a raw line: remove leading and trailing
whitespace. -/
def pyStrip (s : String) : String :=
  String.mk (((s.data.dropWhile Char.isWhitespace).reverse.dropWhile
    Char.isWhitespace).reverse)

/-- Value of a decimal digit run. -/
def decDigits (l : List Char) : Nat :=
  l.foldl (fun acc c => acc * 10 + (c.toNat - 48)) 0

/-- Modelled from the spec (the Python builtin `float()` used by
`parse_numbers` is not repository code): parse an optional sign followed by a
decimal literal — a digit run with an optional `.` and fractional digit run,
at least one digit in total. Exponents and the special values are outside the
model; the claims only exercise plain literals. -/
def parseFloat (s : String) : Option ℚ :=
  let signed : Bool × List Char :=
    match s.data with
    | c :: rest =>
        if c = Char.ofNat 45 then (true, rest)
        else if c = Char.ofNat 43 then (false, rest) else (false, s.data)
    | [] => (false, [])
  let intPart := signed.2.takeWhile (fun c => c.isDigit)
  let after := signed.2.drop intPart.length
  let mag : Option ℚ :=
    match after with
    | [] => if intPart = [] then none else some ((decDigits intPart : ℚ))
    | c :: frac =>
        if c = Char.ofNat 46 ∧ frac.all Char.isDigit ∧ (intPart ≠ [] ∨ frac ≠ []) then
          some ((decDigits intPart : ℚ) + (decDigits frac : ℚ) / (10 : ℚ) ^ frac.length)
        else none
  match mag with
  | none => none
  | some m => some (if signed.1 then -m else m)

/-- The single-quote character of the error-message format. -/
def sq : String := String.singleton (Char.ofNat 39)

/-- The message `f"Line {line_number}: empty line (skipped)."`. -/
def emptyLineMsg (k : Nat) : String :=
  "Line " ++ toString k ++ ": empty line (skipped)."

/-- The message `f"Line {line_number}: invalid number '{text}' (skipped)."`. -/
def invalidNumberMsg (k : Nat) (text : String) : String :=
  "Line " ++ toString k ++ ": invalid number " ++ sq ++ text ++ sq ++ " (skipped)."

/-- The line loop of `parse_numbers`, carrying the 1-indexed line number:
an empty stripped line records a message; a float parse failure records a
message naming the literal; a success appends the value. -/
def parseNumbersLoop : Nat → List String → List ℚ × List String
  | _, [] => ([], [])
  | k, raw :: rest =>
      let text := pyStrip raw
      if text.data = [] then
        let r := parseNumbersLoop (k + 1) rest
        (r.1, emptyLineMsg k :: r.2)
      else
        match parseFloat text with
        | some v =>
            let r := parseNumbersLoop (k + 1) rest
            (v :: r.1, r.2)
        | none =>
            let r := parseNumbersLoop (k + 1) rest
            (r.1, invalidNumberMsg k text :: r.2)

/-- Function `parse_numbers` of `computeStatistics.py`, over the input's list of lines. -/
def parse_numbers (lines : List String) : List ℚ × List String :=
  parseNumbersLoop 1 lines

/-- C6 counterexample: the statistics input `["10","bad","20","","30"]`
produces two recorded parse messages, not three. -/
theorem statistics_end_to_end_cex :
    ¬ ((parse_numbers ["10", "bad", "20", "", "30"]).2.length = 3) := by decide

/-- C6 (amended: the input yields TWO recorded parse outcomes — one
"invalid number", one "empty line" — not three): the lines
`["10","bad","20","","30"]` yield the values `[10, 20, 30]` with exactly those
two messages in line order, mean 20, median 20, no mode, and variance 100. -/
theorem statistics_end_to_end :
    parse_numbers ["10", "bad", "20", "", "30"] =
      ([10, 20, 30], [invalidNumberMsg 2 "bad", emptyLineMsg 4]) ∧
    mean [10, 20, 30] = 20 ∧
    median ([10, 20, 30] : List ℚ) = 20 ∧
    mode [10, 20, 30] = [] ∧
    population_variance [10, 20, 30] (mean [10, 20, 30]) = 100 := by
  have hmean : mean [10, 20, 30] = 20 := by
    rw [mean]
    norm_num [List.foldl_cons, List.foldl_nil]
  have hvar : population_variance [10, 20, 30] ((20 : ℚ)) = 100 := by
    rw [population_variance, if_neg (by norm_num), foldl_sq_sum]
    norm_num
  exact ⟨by decide, hmean, by decide, by decide, by rw [hmean]; exact hvar⟩

end A42
